import Mathlib

/-!
Verification of the restricted regular-expression matcher (src/regex.py).

The program compiles a pattern string into a list of tokens
(`RegexFSM._parse_pattern`) and decides full-string acceptance with a
recursive backtracking matcher (`RegexFSM._match`).  The embedding below
translates the compiler and the matcher into Lean: strings become
`List Char`, Python exceptions become `Except`, and the `(pattern_pos,
string_pos)` index pairs of `_match` become list suffixes (with a second,
index-and-fuel based translation `matchRun` used for the safety and
termination claims).
-/

namespace RegexFSM

/-- A compiled token, as produced by `RegexFSM._parse_pattern`
(src/regex.py lines 151-199).  The source stores pairs
`(token_type, token_value)` with `token_type` one of
`'char' | 'class' | 'star' | 'plus' | 'star_class' | 'plus_class'`;
the value is the single character being matched (for `char`, `star`,
`plus`) or the raw bracket content (for the class forms). -/
inductive Token where
  | tchar (v : Char)
  | tclass (content : List Char)
  | tstar (v : Char)
  | tplus (v : Char)
  | tstarClass (content : List Char)
  | tplusClass (content : List Char)
deriving DecidableEq, Repr

/-- Compile-time errors of `RegexFSM.__init__` / `_parse_pattern`:
`invalidPattern` models the `ValueError`s for an empty pattern or a
pattern starting with `*`/`+` (lines 138-146), `unmatchedBracket` the
`ValueError("Unmatched bracket in regex pattern")` (line 164). -/
inductive CompileErr where
  | invalidPattern
  | unmatchedBracket
deriving DecidableEq, Repr

/-- The single-character test used by the `char`, `star` and `plus`
branches of `_match` (lines 217-225, 243-247, 266-270, 286-291):
the value `'.'` accepts any character, any other value accepts only
itself. -/
def charMatch (v c : Char) : Bool :=
  if v = '.' then true else c = v

/-- The scanning loop of `RegexFSM._match_character_class`
(src/regex.py lines 345-360): when at least three characters remain and
the second is `'-'`, the first and third form an ordinal range; otherwise
the leading character stands alone and must match exactly. -/
def classScan : List Char → Char → Bool
  | a :: d :: b :: rest, c =>
    if d = '-' then
      if a.toNat ≤ c.toNat ∧ c.toNat ≤ b.toNat then true else classScan rest c
    else if c = a then true else classScan (d :: b :: rest) c
  | a :: rest, c => if c = a then true else classScan rest c
  | [], _ => false

/-- `RegexFSM._match_character_class` (src/regex.py lines 340-362): a
leading `'^'` negates the membership computed by the scan over the
remaining content. -/
def matchClass (classPattern : List Char) (c : Char) : Bool :=
  if classPattern.head? = some '^' then !classScan classPattern.tail c
  else classScan classPattern c

/-- The range list built by `CharacterClassState.__init__`
(src/regex.py lines 84-95) from class content already stripped of a
leading `'^'`: grouped three-at-a-time into `(low, high)` pairs when the
middle character is `'-'`, singleton `(c, c)` pairs otherwise. -/
def rangesOf : List Char → List (Char × Char)
  | a :: d :: b :: rest =>
    if d = '-' then (a, b) :: rangesOf rest
    else (a, a) :: rangesOf (d :: b :: rest)
  | a :: rest => (a, a) :: rangesOf rest
  | [] => []

/-- Class content after removing a leading `'^'`
(src/regex.py lines 78-81 and 342-343). -/
def classContentOf (content : List Char) : List Char :=
  if content.head? = some '^' then content.tail else content

/-- The ranges a class token denotes: negation marker stripped, then
grouped by `rangesOf`. -/
def classRanges (content : List Char) : List (Char × Char) :=
  rangesOf (classContentOf content)

/-- The bracket scan of `_parse_pattern` (src/regex.py lines 159-167):
split a list at the first `']'`, returning the content before it and the
remainder after it, or `none` when no `']'` occurs. -/
def findRB : List Char → Option (List Char × List Char)
  | [] => none
  | c :: rest =>
    if c = ']' then some ([], rest)
    else
      match findRB rest with
      | none => none
      | some (content, after) => some (c :: content, after)

theorem findRB_none_iff (l : List Char) : findRB l = none ↔ ']' ∉ l := by
  induction l with
  | nil => simp [findRB]
  | cons c rest ih =>
    by_cases hc : c = ']'
    · subst hc; simp [findRB]
    · simp only [findRB, if_neg hc]
      cases h : findRB rest with
      | none => simp [List.mem_cons, hc, ih.mp h, Ne.symm hc]
      | some ca =>
        simp only [List.mem_cons]
        constructor
        · intro hcontra; cases hcontra
        · intro hno
          have : ']' ∉ rest := fun hm => hno (Or.inr hm)
          rw [ih.mpr this] at h
          cases h

theorem findRB_some_decomp (l content after : List Char)
    (h : findRB l = some (content, after)) :
    l = content ++ ']' :: after ∧ ']' ∉ content := by
  induction l generalizing content after with
  | nil => simp [findRB] at h
  | cons c rest ih =>
    by_cases hc : c = ']'
    · subst hc
      simp [findRB] at h
      obtain ⟨h1, h2⟩ := h
      subst h1; subst h2; simp
    · simp only [findRB, if_neg hc] at h
      cases hr : findRB rest with
      | none => rw [hr] at h; cases h
      | some ca =>
        obtain ⟨content', after'⟩ := ca
        rw [hr] at h
        simp only [Option.some.injEq, Prod.mk.injEq] at h
        obtain ⟨h1, h2⟩ := h
        obtain ⟨hd, hn⟩ := ih content' after' hr
        subst h2
        constructor
        · rw [← h1, hd]; simp
        · rw [← h1]
          simp [List.mem_cons, hn, Ne.symm hc]

theorem findRB_some_length (l content after : List Char)
    (h : findRB l = some (content, after)) : after.length < l.length := by
  have := (findRB_some_decomp l content after h).1
  subst this
  simp
  omega

/-- `RegexFSM._parse_pattern` (src/regex.py lines 151-199) as a function
from the pattern character list to the token list.  Branch order follows
the source: a `'['` opens a class and scans to the first `']'` (error
when none exists), otherwise a one-character lookahead attaches `'*'` or
`'+'` to the current character, a stray `'*'`/`'+'` is skipped, and any
other character becomes a `char` token. -/
def parseLoop : List Char → Except CompileErr (List Token)
  | [] => .ok []
  | c :: rest =>
    if c = '[' then
      match hf : findRB rest with
      | none => .error .unmatchedBracket
      | some (content, after) =>
        if after.head? = some '*' then
          (parseLoop after.tail).map (fun ts => Token.tstarClass content :: ts)
        else if after.head? = some '+' then
          (parseLoop after.tail).map (fun ts => Token.tplusClass content :: ts)
        else
          (parseLoop after).map (fun ts => Token.tclass content :: ts)
    else if rest.head? = some '*' then
      (parseLoop rest.tail).map (fun ts => Token.tstar c :: ts)
    else if rest.head? = some '+' then
      (parseLoop rest.tail).map (fun ts => Token.tplus c :: ts)
    else if c = '*' ∨ c = '+' then
      parseLoop rest
    else
      (parseLoop rest).map (fun ts => Token.tchar c :: ts)
termination_by p => p.length
decreasing_by
  all_goals simp_wf
  all_goals
    first
    | (have h1 := findRB_some_length rest content after hf
       have h2 : after.tail.length ≤ after.length := by cases after <;> simp
       omega)
    | (have h3 : rest.tail.length ≤ rest.length := by cases rest <;> simp
       omega)
    | omega

/-- `RegexFSM.__init__` (src/regex.py lines 136-149): reject the empty
pattern and a pattern starting with `'*'` or `'+'` (both `ValueError`s,
modelled as `invalidPattern`), then parse. -/
def compile (p : List Char) : Except CompileErr (List Token) :=
  if p = [] then .error .invalidPattern
  else if p.head? = some '*' ∨ p.head? = some '+' then .error .invalidPattern
  else parseLoop p

/-- The `while` loop of the `star`/`star_class` branches of
`RegexFSM._match` (src/regex.py lines 239-256 and 305-316), at the input
suffix starting at loop index `i`: stop (fail) when the input is
exhausted or the current character does not satisfy `pred`; otherwise
try the rest of the pattern just past this character (`k` is
`_match(pattern_pos + 1, i + 1, string)` as a function of the remaining
input) and on failure advance the loop. -/
def starLoop (pred : Char → Bool) (k : List Char → Bool) : List Char → Bool
  | [] => false
  | c :: s' => if pred c then (k s' || starLoop pred k s') else false

/-- The `while` loop of the `plus`/`plus_class` branches of
`RegexFSM._match` (src/regex.py lines 275-296 and 325-336), at the input
suffix starting at loop index `i` (the branch has already consumed one
matching character): first try the rest of the pattern at the current
position, then stop on exhausted input or a non-matching character,
otherwise advance. -/
def plusLoop (pred : Char → Bool) (k : List Char → Bool) : List Char → Bool
  | [] => k []
  | c :: s' => k (c :: s') || (if pred c then plusLoop pred k s' else false)

/-- `RegexFSM._match` (src/regex.py lines 206-338) with the
`(pattern_pos, string_pos)` index pair replaced by the corresponding
token-list and input-list suffixes.  An exhausted pattern succeeds
exactly on exhausted input (line 212); `char` and `class` tokens consume
one matching character; `star`/`star_class` first try the
zero-occurrence branch (lines 236-237, 302-303) and then run their scan
loop; `plus`/`plus_class` require one matching character up front
(lines 262-273, 322-323) and then run their loop. -/
def mmatch : List Token → List Char → Bool
  | [], s => s.isEmpty
  | Token.tchar v :: ts, s =>
    match s with
    | [] => false
    | c :: s' => if charMatch v c then mmatch ts s' else false
  | Token.tclass ct :: ts, s =>
    match s with
    | [] => false
    | c :: s' => if matchClass ct c then mmatch ts s' else false
  | Token.tstar v :: ts, s =>
    mmatch ts s || starLoop (charMatch v) (fun r => mmatch ts r) s
  | Token.tplus v :: ts, s =>
    match s with
    | [] => false
    | c :: s' =>
      if charMatch v c then plusLoop (charMatch v) (fun r => mmatch ts r) s'
      else false
  | Token.tstarClass ct :: ts, s =>
    mmatch ts s || starLoop (matchClass ct) (fun r => mmatch ts r) s
  | Token.tplusClass ct :: ts, s =>
    match s with
    | [] => false
    | c :: s' =>
      if matchClass ct c then plusLoop (matchClass ct) (fun r => mmatch ts r) s'
      else false

/-- `RegexFSM.check_string` (src/regex.py lines 201-204): run the
backtracking matcher from `(0, 0)`, i.e. on the full token list and the
full input. -/
def checkString (ts : List Token) (s : List Char) : Bool :=
  mmatch ts s

/-- The declarative reading of one token consuming one contiguous
segment of the input: `char`/`class` tokens consume exactly one
satisfying character, `star`/`star_class` any run (possibly empty) of
satisfying characters, `plus`/`plus_class` a non-empty such run. -/
def tokenSeg : Token → List Char → Bool
  | Token.tchar v, seg =>
    match seg with
    | [c] => charMatch v c
    | _ => false
  | Token.tclass ct, seg =>
    match seg with
    | [c] => matchClass ct c
    | _ => false
  | Token.tstar v, seg => seg.all (charMatch v)
  | Token.tplus v, seg => !seg.isEmpty && seg.all (charMatch v)
  | Token.tstarClass ct, seg => seg.all (matchClass ct)
  | Token.tplusClass ct, seg => !seg.isEmpty && seg.all (matchClass ct)

/-- Length of the maximal contiguous run of characters satisfying `pred`
at the head of the input: the number of loop iterations the
`star`/`star_class` scan of `_match` (lines 240-256, 306-316) can make
before its `break`. -/
def maxRun (pred : Char → Bool) : List Char → Nat
  | [] => 0
  | c :: s' => if pred c then maxRun pred s' + 1 else 0

/-- The occurrence counts for which the `star`/`star_class` loop of
`_match` (lines 240-256, 306-316) invokes the recursive call
`_match(pattern_pos + 1, i + 1, string)`, in the order the loop
generates them when no invocation succeeds: the loop starts at
`i = string_pos`, checks the character at `i`, recurses at `i + 1`
(occurrence count `i + 1 - string_pos`) and increments `i`.  `n` is the
count already consumed before the current suffix. -/
def starAttemptCounts (pred : Char → Bool) : List Char → Nat → List Nat
  | [], _ => []
  | c :: s', n =>
    if pred c then (n + 1) :: starAttemptCounts pred s' (n + 1) else []

/-- Result of one run of the index-based matcher: a boolean verdict, a
runtime `IndexError` (a list access outside its guard — never happens,
see the C6 theorem), or exhausted fuel (the recursion running longer
than the fuel allows — ruled out for sufficient fuel by the C7
theorem). -/
inductive RunResult where
  | ok (b : Bool)
  | indexError
  | outOfFuel
deriving DecidableEq, Repr

mutual

/-- `RegexFSM._match` (src/regex.py lines 206-338) translated directly,
keeping the `(pattern_pos, string_pos)` index pair of the source.  Every
list access of the source (`self.parsed_pattern[pattern_pos]`,
`string[string_pos]`, `string[i]`) is modelled by `List.get?`, and an
out-of-range access — which in Python would raise — yields
`RunResult.indexError`.  The recursion is paced by explicit fuel, one
unit per call, so exhausted fuel bounds the recursion depth. -/
def matchRun (fuel : Nat) (ts : List Token) (s : List Char) (p sp : Nat) : RunResult :=
  match fuel with
  | 0 => RunResult.outOfFuel
  | fuel + 1 =>
    if p ≥ ts.length then RunResult.ok (decide (sp ≥ s.length))
    else
      match ts.get? p with
      | none => RunResult.indexError
      | some t =>
        match t with
        | Token.tchar v =>
          if v = '.' then
            if sp < s.length then matchRun fuel ts s (p + 1) (sp + 1)
            else RunResult.ok false
          else if sp < s.length then
            match s.get? sp with
            | none => RunResult.indexError
            | some c =>
              if c = v then matchRun fuel ts s (p + 1) (sp + 1)
              else RunResult.ok false
          else RunResult.ok false
        | Token.tclass ct =>
          if sp < s.length then
            match s.get? sp with
            | none => RunResult.indexError
            | some c =>
              if matchClass ct c then matchRun fuel ts s (p + 1) (sp + 1)
              else RunResult.ok false
          else RunResult.ok false
        | Token.tstar v =>
          match matchRun fuel ts s (p + 1) sp with
          | RunResult.ok true => RunResult.ok true
          | RunResult.ok false => starRun fuel (charMatch v) ts s p sp
          | r => r
        | Token.tplus v =>
          if sp ≥ s.length then RunResult.ok false
          else
            match s.get? sp with
            | none => RunResult.indexError
            | some c =>
              if charMatch v c then plusRun fuel (charMatch v) ts s p (sp + 1)
              else RunResult.ok false
        | Token.tstarClass ct =>
          match matchRun fuel ts s (p + 1) sp with
          | RunResult.ok true => RunResult.ok true
          | RunResult.ok false => starRun fuel (matchClass ct) ts s p sp
          | r => r
        | Token.tplusClass ct =>
          if sp ≥ s.length then RunResult.ok false
          else
            match s.get? sp with
            | none => RunResult.indexError
            | some c =>
              if matchClass ct c then plusRun fuel (matchClass ct) ts s p (sp + 1)
              else RunResult.ok false

/-- The `star`/`star_class` scan loop (src/regex.py lines 240-256 and
305-316) with its loop index `i`: `pred` is the repeated atom's
character test (`charMatch` for `star`, `matchClass` for
`star_class`). -/
def starRun (fuel : Nat) (pred : Char → Bool) (ts : List Token) (s : List Char)
    (p i : Nat) : RunResult :=
  match fuel with
  | 0 => RunResult.outOfFuel
  | fuel + 1 =>
    if i < s.length then
      match s.get? i with
      | none => RunResult.indexError
      | some c =>
        if pred c then
          match matchRun fuel ts s (p + 1) (i + 1) with
          | RunResult.ok true => RunResult.ok true
          | RunResult.ok false => starRun fuel pred ts s p (i + 1)
          | r => r
        else RunResult.ok false
    else RunResult.ok false

/-- The `plus`/`plus_class` loop (src/regex.py lines 276-296 and
326-336) with its loop index `i` (starting at `string_pos + 1`, the
first occurrence already checked by the caller). -/
def plusRun (fuel : Nat) (pred : Char → Bool) (ts : List Token) (s : List Char)
    (p i : Nat) : RunResult :=
  match fuel with
  | 0 => RunResult.outOfFuel
  | fuel + 1 =>
    if i ≤ s.length then
      match matchRun fuel ts s (p + 1) i with
      | RunResult.ok true => RunResult.ok true
      | RunResult.ok false =>
        if i ≥ s.length then RunResult.ok false
        else
          match s.get? i with
          | none => RunResult.indexError
          | some c =>
            if pred c then plusRun fuel pred ts s p (i + 1)
            else RunResult.ok false
      | r => r
    else RunResult.ok false

end

/-- The pattern contains an opening bracket with no closing bracket
anywhere after it (the condition of the claim about `UnmatchedBracket`
failures). -/
def Unclosed (p : List Char) : Prop :=
  ∃ before inside, p = before ++ '[' :: inside ∧ ']' ∉ inside

/-! ### The star and plus scan loops, declaratively -/

theorem cons_eq_split {c a : Char} {s' seg' rest : List Char}
    (heq : c :: s' = (a :: seg') ++ rest) : a = c ∧ s' = seg' ++ rest := by
  rw [List.cons_append] at heq
  injection heq with h1 h2
  exact ⟨h1.symm, h2⟩

theorem starLoop_iff (pred : Char → Bool) (k : List Char → Bool) (s : List Char) :
    starLoop pred k s = true ↔
      ∃ seg rest, s = seg ++ rest ∧ seg ≠ [] ∧ seg.all pred = true ∧ k rest = true := by
  induction s with
  | nil =>
    refine iff_of_false (by simp [starLoop]) ?_
    rintro ⟨seg, rest, heq, hne, -, -⟩
    rcases List.append_eq_nil.mp heq.symm with ⟨h1, -⟩
    exact hne h1
  | cons c s' ih =>
    cases hpc : pred c with
    | true =>
      simp only [starLoop, hpc, if_true, Bool.or_eq_true, ih]
      constructor
      · rintro (hk | ⟨seg, rest, heq, hne, hall, hk⟩)
        · exact ⟨[c], s', rfl, by simp, by simp [hpc], hk⟩
        · exact ⟨c :: seg, rest, by rw [heq]; rfl, by simp, by simp [hpc, hall], hk⟩
      · rintro ⟨seg, rest, heq, hne, hall, hk⟩
        match seg, hne with
        | a :: seg', _ =>
          obtain ⟨ha, h2⟩ := cons_eq_split heq
          have hall' : pred a = true ∧ seg'.all pred = true := by simpa using hall
          match seg' with
          | [] => left; rw [h2]; simpa using hk
          | b :: seg'' =>
            right
            exact ⟨b :: seg'', rest, h2, by simp, hall'.2, hk⟩
    | false =>
      refine iff_of_false (by simp [starLoop, hpc]) ?_
      rintro ⟨seg, rest, heq, hne, hall, -⟩
      match seg, hne with
      | a :: seg', _ =>
        obtain ⟨ha, -⟩ := cons_eq_split heq
        have hall' : pred a = true ∧ seg'.all pred = true := by simpa using hall
        rw [ha, hpc] at hall'
        cases hall'.1

theorem plusLoop_iff (pred : Char → Bool) (k : List Char → Bool) (s : List Char) :
    plusLoop pred k s = true ↔
      ∃ seg rest, s = seg ++ rest ∧ seg.all pred = true ∧ k rest = true := by
  induction s with
  | nil =>
    simp only [plusLoop]
    constructor
    · intro hk; exact ⟨[], [], rfl, rfl, hk⟩
    · rintro ⟨seg, rest, heq, -, hk⟩
      rcases List.append_eq_nil.mp heq.symm with ⟨rfl, rfl⟩
      exact hk
  | cons c s' ih =>
    simp only [plusLoop, Bool.or_eq_true]
    constructor
    · rintro (hk | hrec)
      · exact ⟨[], c :: s', rfl, rfl, hk⟩
      · cases hpc : pred c with
        | true =>
          simp only [hpc, eq_self_iff_true, if_true] at hrec
          obtain ⟨seg, rest, heq, hall, hk⟩ := ih.mp hrec
          exact ⟨c :: seg, rest, by rw [heq]; rfl, by simp [hpc, hall], hk⟩
        | false => rw [hpc] at hrec; simp at hrec
    · rintro ⟨seg, rest, heq, hall, hk⟩
      match seg with
      | [] =>
        left
        simp only [List.nil_append] at heq
        rw [← heq] at hk
        exact hk
      | a :: seg' =>
        obtain ⟨ha, h2⟩ := cons_eq_split heq
        have hall' : pred a = true ∧ seg'.all pred = true := by simpa using hall
        right
        rw [← ha, hall'.1]
        simpa using ih.mpr ⟨seg', rest, h2, hall'.2, hk⟩

/-! ### The matcher against the declarative token-segment semantics -/

theorem single_token_branch_iff (q : Char → Bool) (k : List Char → Bool) (s : List Char) :
    (match s with
      | [] => false
      | c :: s' => if q c then k s' else false) = true ↔
      ∃ c s', s = c :: s' ∧ q c = true ∧ k s' = true := by
  cases s with
  | nil =>
    refine iff_of_false (by simp) ?_
    rintro ⟨c, s', h, -, -⟩
    cases h
  | cons c s' =>
    cases hq : q c with
    | true =>
      simp only [hq, eq_self_iff_true, if_true]
      constructor
      · intro hk; exact ⟨c, s', rfl, hq, hk⟩
      · rintro ⟨c', s'', heq, -, hk⟩
        injection heq with h1 h2
        rw [h2]; exact hk
    | false =>
      refine iff_of_false (by simp [hq]) ?_
      rintro ⟨c', s'', heq, hq', -⟩
      injection heq with h1 h2
      rw [← h1, hq] at hq'
      cases hq'

theorem tokenSeg_single_char (v : Char) (seg : List Char) :
    tokenSeg (Token.tchar v) seg = true ↔ ∃ c, seg = [c] ∧ charMatch v c = true := by
  match seg with
  | [] => simp [tokenSeg]
  | [c] => simp [tokenSeg]
  | a :: b :: l => refine iff_of_false (by simp [tokenSeg]) ?_; rintro ⟨c, h, -⟩; simp at h

theorem tokenSeg_single_class (ct : List Char) (seg : List Char) :
    tokenSeg (Token.tclass ct) seg = true ↔ ∃ c, seg = [c] ∧ matchClass ct c = true := by
  match seg with
  | [] => simp [tokenSeg]
  | [c] => simp [tokenSeg]
  | a :: b :: l => refine iff_of_false (by simp [tokenSeg]) ?_; rintro ⟨c, h, -⟩; simp at h

theorem mmatch_cons_iff (t : Token) (ts : List Token) (s : List Char) :
    mmatch (t :: ts) s = true ↔
      ∃ seg rest, s = seg ++ rest ∧ tokenSeg t seg = true ∧ mmatch ts rest = true := by
  cases t with
  | tchar v =>
    rw [show mmatch (Token.tchar v :: ts) s =
        (match s with
          | [] => false
          | c :: s' => if charMatch v c then mmatch ts s' else false) from rfl,
      single_token_branch_iff]
    constructor
    · rintro ⟨c, s', rfl, hq, hk⟩
      exact ⟨[c], s', rfl, (tokenSeg_single_char v [c]).mpr ⟨c, rfl, hq⟩, hk⟩
    · rintro ⟨seg, rest, heq, hseg, hrest⟩
      obtain ⟨c, rfl, hq⟩ := (tokenSeg_single_char v seg).mp hseg
      exact ⟨c, rest, by simpa using heq, hq, hrest⟩
  | tclass ct =>
    rw [show mmatch (Token.tclass ct :: ts) s =
        (match s with
          | [] => false
          | c :: s' => if matchClass ct c then mmatch ts s' else false) from rfl,
      single_token_branch_iff]
    constructor
    · rintro ⟨c, s', rfl, hq, hk⟩
      exact ⟨[c], s', rfl, (tokenSeg_single_class ct [c]).mpr ⟨c, rfl, hq⟩, hk⟩
    · rintro ⟨seg, rest, heq, hseg, hrest⟩
      obtain ⟨c, rfl, hq⟩ := (tokenSeg_single_class ct seg).mp hseg
      exact ⟨c, rest, by simpa using heq, hq, hrest⟩
  | tstar v =>
    simp only [mmatch, Bool.or_eq_true, starLoop_iff]
    constructor
    · rintro (h | ⟨seg, rest, heq, -, hall, hk⟩)
      · exact ⟨[], s, rfl, by simp [tokenSeg], h⟩
      · exact ⟨seg, rest, heq, by simpa [tokenSeg] using hall, hk⟩
    · rintro ⟨seg, rest, heq, hseg, hrest⟩
      match seg with
      | [] => left; rw [heq]; simpa using hrest
      | a :: seg' =>
        right
        exact ⟨a :: seg', rest, heq, by simp, by simpa [tokenSeg] using hseg, hrest⟩
  | tstarClass ct =>
    simp only [mmatch, Bool.or_eq_true, starLoop_iff]
    constructor
    · rintro (h | ⟨seg, rest, heq, -, hall, hk⟩)
      · exact ⟨[], s, rfl, by simp [tokenSeg], h⟩
      · exact ⟨seg, rest, heq, by simpa [tokenSeg] using hall, hk⟩
    · rintro ⟨seg, rest, heq, hseg, hrest⟩
      match seg with
      | [] => left; rw [heq]; simpa using hrest
      | a :: seg' =>
        right
        exact ⟨a :: seg', rest, heq, by simp, by simpa [tokenSeg] using hseg, hrest⟩
  | tplus v =>
    rw [show mmatch (Token.tplus v :: ts) s =
        (match s with
          | [] => false
          | c :: s' => if charMatch v c then
              plusLoop (charMatch v) (fun r => mmatch ts r) s' else false) from rfl,
      single_token_branch_iff]
    constructor
    · rintro ⟨c, s', rfl, hq, hk⟩
      obtain ⟨seg, rest, heq, hall, hk'⟩ := (plusLoop_iff _ _ _).mp hk
      exact ⟨c :: seg, rest, by rw [heq]; rfl,
        by simp [tokenSeg, hq, hall], hk'⟩
    · rintro ⟨seg, rest, heq, hseg, hrest⟩
      match seg with
      | [] => simp [tokenSeg] at hseg
      | a :: seg' =>
        have hall : charMatch v a = true ∧ seg'.all (charMatch v) = true := by
          have : (a :: seg').all (charMatch v) = true := by simpa [tokenSeg] using hseg
          simpa using this
        refine ⟨a, seg' ++ rest, by simpa using heq, hall.1, ?_⟩
        exact (plusLoop_iff _ _ _).mpr ⟨seg', rest, rfl, hall.2, hrest⟩
  | tplusClass ct =>
    rw [show mmatch (Token.tplusClass ct :: ts) s =
        (match s with
          | [] => false
          | c :: s' => if matchClass ct c then
              plusLoop (matchClass ct) (fun r => mmatch ts r) s' else false) from rfl,
      single_token_branch_iff]
    constructor
    · rintro ⟨c, s', rfl, hq, hk⟩
      obtain ⟨seg, rest, heq, hall, hk'⟩ := (plusLoop_iff _ _ _).mp hk
      exact ⟨c :: seg, rest, by rw [heq]; rfl,
        by simp [tokenSeg, hq, hall], hk'⟩
    · rintro ⟨seg, rest, heq, hseg, hrest⟩
      match seg with
      | [] => simp [tokenSeg] at hseg
      | a :: seg' =>
        have hall : matchClass ct a = true ∧ seg'.all (matchClass ct) = true := by
          have : (a :: seg').all (matchClass ct) = true := by simpa [tokenSeg] using hseg
          simpa using this
        refine ⟨a, seg' ++ rest, by simpa using heq, hall.1, ?_⟩
        exact (plusLoop_iff _ _ _).mpr ⟨seg', rest, rfl, hall.2, hrest⟩

theorem mmatch_iff_segs (ts : List Token) (s : List Char) :
    mmatch ts s = true ↔
      ∃ segs : List (List Char),
        List.Forall₂ (fun t seg => tokenSeg t seg = true) ts segs ∧ segs.flatten = s := by
  induction ts generalizing s with
  | nil =>
    simp only [mmatch, List.isEmpty_iff, List.forall₂_nil_left_iff]
    constructor
    · rintro rfl; exact ⟨[], rfl, rfl⟩
    · rintro ⟨segs, rfl, hj⟩; simpa using hj.symm
  | cons t ts ih =>
    rw [mmatch_cons_iff]
    constructor
    · rintro ⟨seg, rest, rfl, hseg, hrest⟩
      obtain ⟨segs, hf, hj⟩ := (ih rest).mp hrest
      exact ⟨seg :: segs, List.Forall₂.cons hseg hf, by simp [hj]⟩
    · rintro ⟨segs, hf, hj⟩
      cases hf with
      | cons hseg hf' =>
        rename_i seg segs'
        exact ⟨seg, segs'.flatten, by simp [← hj], hseg,
          (ih segs'.flatten).mpr ⟨segs', hf', rfl⟩⟩

/-! ### The order in which the star loop attempts occurrence counts -/

theorem starAttemptCounts_shift (pred : Char → Bool) (s : List Char) (n : Nat) :
    starAttemptCounts pred s n = (starAttemptCounts pred s 0).map (fun m => m + n) := by
  induction s generalizing n with
  | nil => simp [starAttemptCounts]
  | cons c s' ih =>
    cases hpc : pred c with
    | true =>
      simp only [starAttemptCounts, hpc, eq_self_iff_true, if_true, List.map_cons]
      rw [ih (n + 1), ih 1, List.map_map]
      congr 1
      · omega
      · apply List.map_congr_left
        intro m hm
        simp only [Function.comp_apply]
        omega
    | false => simp [starAttemptCounts, hpc]

theorem starAttemptCounts_asc (pred : Char → Bool) (s : List Char) :
    starAttemptCounts pred s 0 = (List.range (maxRun pred s)).map (fun m => m + 1) := by
  induction s with
  | nil => simp [starAttemptCounts, maxRun]
  | cons c s' ih =>
    cases hpc : pred c with
    | true =>
      simp only [starAttemptCounts, maxRun, hpc, eq_self_iff_true, if_true]
      rw [starAttemptCounts_shift pred s' 1, ih, List.range_succ_eq_map]
      simp [List.map_map, Function.comp, Nat.succ_eq_add_one]
    | false => simp [starAttemptCounts, maxRun, hpc]

theorem starLoop_eq_attempts (pred : Char → Bool) (k : List Char → Bool) (s : List Char) :
    starLoop pred k s = (starAttemptCounts pred s 0).any (fun n => k (s.drop n)) := by
  induction s with
  | nil => simp [starLoop, starAttemptCounts]
  | cons c s' ih =>
    cases hpc : pred c with
    | true =>
      simp only [starLoop, starAttemptCounts, hpc, eq_self_iff_true, if_true]
      rw [starAttemptCounts_shift pred s' 1, ih]
      simp only [List.any_cons, List.any_map]
      congr 1
    | false => simp [starLoop, starAttemptCounts, hpc]

/-! ### Branch equations for the parser -/

theorem parseLoop_nil : parseLoop [] = Except.ok [] := by
  simp [parseLoop]

theorem parseLoop_bracket_none (rest : List Char) (h : findRB rest = none) :
    parseLoop ('[' :: rest) = Except.error CompileErr.unmatchedBracket := by
  rw [parseLoop, if_pos rfl]
  split
  · rfl
  · rename_i content after hf
    rw [h] at hf
    cases hf

theorem parseLoop_bracket_star (rest content after : List Char)
    (h : findRB rest = some (content, after)) (h2 : after.head? = some '*') :
    parseLoop ('[' :: rest)
      = (parseLoop after.tail).map (fun ts => Token.tstarClass content :: ts) := by
  rw [parseLoop, if_pos rfl]
  split
  · rename_i hf
    rw [h] at hf
    cases hf
  · rename_i c2 a2 hf
    rw [h] at hf
    injection hf with hf'
    simp only [Prod.mk.injEq] at hf'
    obtain ⟨rfl, rfl⟩ := hf'
    rw [if_pos h2]

theorem parseLoop_bracket_plus (rest content after : List Char)
    (h : findRB rest = some (content, after)) (h2 : after.head? = some '+') :
    parseLoop ('[' :: rest)
      = (parseLoop after.tail).map (fun ts => Token.tplusClass content :: ts) := by
  rw [parseLoop, if_pos rfl]
  split
  · rename_i hf
    rw [h] at hf
    cases hf
  · rename_i c2 a2 hf
    rw [h] at hf
    injection hf with hf'
    simp only [Prod.mk.injEq] at hf'
    obtain ⟨rfl, rfl⟩ := hf'
    rw [if_neg (by simp [h2]), if_pos h2]

theorem parseLoop_bracket_bare (rest content after : List Char)
    (h : findRB rest = some (content, after))
    (h2 : after.head? ≠ some '*') (h3 : after.head? ≠ some '+') :
    parseLoop ('[' :: rest)
      = (parseLoop after).map (fun ts => Token.tclass content :: ts) := by
  rw [parseLoop, if_pos rfl]
  split
  · rename_i hf
    rw [h] at hf
    cases hf
  · rename_i c2 a2 hf
    rw [h] at hf
    injection hf with hf'
    simp only [Prod.mk.injEq] at hf'
    obtain ⟨rfl, rfl⟩ := hf'
    rw [if_neg h2, if_neg h3]

theorem parseLoop_look_star (c : Char) (rest : List Char)
    (hc : c ≠ '[') (h : rest.head? = some '*') :
    parseLoop (c :: rest) = (parseLoop rest.tail).map (fun ts => Token.tstar c :: ts) := by
  rw [parseLoop, if_neg hc, if_pos h]

theorem parseLoop_look_plus (c : Char) (rest : List Char)
    (hc : c ≠ '[') (h : rest.head? = some '+') :
    parseLoop (c :: rest) = (parseLoop rest.tail).map (fun ts => Token.tplus c :: ts) := by
  rw [parseLoop, if_neg hc, if_neg (by simp [h]), if_pos h]

theorem parseLoop_skip (c : Char) (rest : List Char)
    (hc : c ≠ '[') (h1 : rest.head? ≠ some '*') (h2 : rest.head? ≠ some '+')
    (h3 : c = '*' ∨ c = '+') :
    parseLoop (c :: rest) = parseLoop rest := by
  rw [parseLoop, if_neg hc, if_neg h1, if_neg h2, if_pos h3]

theorem parseLoop_char (c : Char) (rest : List Char)
    (hc : c ≠ '[') (h1 : rest.head? ≠ some '*') (h2 : rest.head? ≠ some '+')
    (h3 : ¬(c = '*' ∨ c = '+')) :
    parseLoop (c :: rest) = (parseLoop rest).map (fun ts => Token.tchar c :: ts) := by
  rw [parseLoop, if_neg hc, if_neg h1, if_neg h2, if_neg h3]

/-! ### Unclosed brackets -/

theorem unclosed_nil : ¬ Unclosed [] := by
  rintro ⟨before, inside, h, -⟩
  cases before <;> simp at h

theorem unclosed_cons_iff (c : Char) (l : List Char) :
    Unclosed (c :: l) ↔ (c = '[' ∧ ']' ∉ l) ∨ Unclosed l := by
  constructor
  · rintro ⟨before, inside, heq, hni⟩
    match before with
    | [] =>
      simp only [List.nil_append] at heq
      injection heq with h1 h2
      exact Or.inl ⟨h1, h2 ▸ hni⟩
    | b :: before' =>
      rw [List.cons_append] at heq
      injection heq with h1 h2
      exact Or.inr ⟨before', inside, h2, hni⟩
  · rintro (⟨rfl, hni⟩ | ⟨before, inside, heq, hni⟩)
    · exact ⟨[], l, rfl, hni⟩
    · exact ⟨c :: before, inside, by rw [heq]; rfl, hni⟩

theorem unclosed_strip : ∀ (content after : List Char), ']' ∉ content →
    (Unclosed (content ++ ']' :: after) ↔ Unclosed after) := by
  intro content
  induction content with
  | nil =>
    intro after hc
    simp only [List.nil_append]
    rw [unclosed_cons_iff]
    constructor
    · rintro (⟨h, -⟩ | h)
      · exact absurd h (by decide)
      · exact h
    · exact Or.inr
  | cons a content' ih =>
    intro after hc
    have hc' : ']' ∉ content' := fun h => hc (by simp [h])
    rw [List.cons_append, unclosed_cons_iff]
    constructor
    · rintro (⟨rfl, hni⟩ | h)
      · exact absurd (by simp : ']' ∈ content' ++ ']' :: after) hni
      · exact (ih after hc').mp h
    · intro h
      exact Or.inr ((ih after hc').mpr h)

theorem exceptMap_error_iff {α β : Type} (f : α → β) (x : Except CompileErr α)
    (e : CompileErr) : x.map f = Except.error e ↔ x = Except.error e := by
  cases x <;> simp [Except.map]

/-! ### Exactly which patterns the parser rejects -/

theorem parseLoop_error_characterization :
    ∀ (n : Nat) (p : List Char), p.length ≤ n →
      (parseLoop p = Except.error CompileErr.unmatchedBracket ↔ Unclosed p)
      ∧ parseLoop p ≠ Except.error CompileErr.invalidPattern := by
  intro n
  induction n with
  | zero =>
    intro p hp
    have hnil : p = [] := List.length_eq_zero.mp (Nat.le_zero.mp hp)
    subst hnil
    rw [parseLoop_nil]
    exact ⟨iff_of_false (by simp) unclosed_nil, by simp⟩
  | succ n ih =>
    intro p hp
    match p with
    | [] =>
      rw [parseLoop_nil]
      exact ⟨iff_of_false (by simp) unclosed_nil, by simp⟩
    | c :: rest =>
      have hr : rest.length ≤ n := by simpa using hp
      by_cases hc : c = '['
      · subst hc
        cases hf : findRB rest with
        | none =>
          rw [parseLoop_bracket_none rest hf]
          refine ⟨⟨fun _ => ?_, fun _ => rfl⟩, by simp⟩
          exact (unclosed_cons_iff _ _).mpr (Or.inl ⟨rfl, (findRB_none_iff rest).mp hf⟩)
        | some ca =>
          obtain ⟨content, after⟩ := ca
          obtain ⟨hdec, hnc⟩ := findRB_some_decomp rest content after hf
          have hlen : after.length < rest.length := findRB_some_length rest content after hf
          have hU : Unclosed ('[' :: rest) ↔ Unclosed after := by
            rw [unclosed_cons_iff]
            constructor
            · rintro (⟨-, hni⟩ | h)
              · exact absurd (by rw [hdec]; simp : (']' : Char) ∈ rest) hni
              · rw [hdec] at h
                exact (unclosed_strip content after hnc).mp h
            · intro h
              refine Or.inr ?_
              rw [hdec]
              exact (unclosed_strip content after hnc).mpr h
          by_cases h2 : after.head? = some '*'
          · obtain ⟨tl, rfl⟩ : ∃ tl, after = '*' :: tl := by
              cases after with
              | nil => simp at h2
              | cons a tl =>
                simp only [List.head?] at h2
                injection h2 with h2'
                exact ⟨tl, by rw [h2']⟩
            rw [parseLoop_bracket_star rest content ('*' :: tl) hf (by simp)]
            have htl : tl.length ≤ n := by
              simp only [List.length_cons] at hlen
              omega
            obtain ⟨ih1, ih2⟩ := ih tl htl
            constructor
            · rw [exceptMap_error_iff, List.tail_cons, ih1, hU, unclosed_cons_iff]
              constructor
              · exact Or.inr
              · rintro (⟨h, -⟩ | h)
                · exact absurd h (by decide)
                · exact h
            · rw [List.tail_cons, Ne, exceptMap_error_iff]
              exact ih2
          · by_cases h3 : after.head? = some '+'
            · obtain ⟨tl, rfl⟩ : ∃ tl, after = '+' :: tl := by
                cases after with
                | nil => simp at h3
                | cons a tl =>
                  simp only [List.head?] at h3
                  injection h3 with h3'
                  exact ⟨tl, by rw [h3']⟩
              rw [parseLoop_bracket_plus rest content ('+' :: tl) hf (by simp)]
              have htl : tl.length ≤ n := by
                simp only [List.length_cons] at hlen
                omega
              obtain ⟨ih1, ih2⟩ := ih tl htl
              constructor
              · rw [exceptMap_error_iff, List.tail_cons, ih1, hU, unclosed_cons_iff]
                constructor
                · exact Or.inr
                · rintro (⟨h, -⟩ | h)
                  · exact absurd h (by decide)
                  · exact h
              · rw [List.tail_cons, Ne, exceptMap_error_iff]
                exact ih2
            · rw [parseLoop_bracket_bare rest content after hf h2 h3]
              obtain ⟨ih1, ih2⟩ := ih after (by omega)
              constructor
              · rw [exceptMap_error_iff, ih1, hU]
              · rw [Ne, exceptMap_error_iff]
                exact ih2
      · have hUc : Unclosed (c :: rest) ↔ Unclosed rest := by
          rw [unclosed_cons_iff]
          constructor
          · rintro (⟨h, -⟩ | h)
            · exact absurd h hc
            · exact h
          · exact Or.inr
        by_cases h1 : rest.head? = some '*'
        · obtain ⟨tl, rfl⟩ : ∃ tl, rest = '*' :: tl := by
            cases rest with
            | nil => simp at h1
            | cons a tl =>
              simp only [List.head?] at h1
              injection h1 with h1'
              exact ⟨tl, by rw [h1']⟩
          rw [parseLoop_look_star c ('*' :: tl) hc (by simp)]
          have htl : tl.length ≤ n := by
            simp only [List.length_cons] at hr
            omega
          obtain ⟨ih1, ih2⟩ := ih tl htl
          constructor
          · rw [exceptMap_error_iff, List.tail_cons, ih1, hUc, unclosed_cons_iff]
            constructor
            · exact Or.inr
            · rintro (⟨h, -⟩ | h)
              · exact absurd h (by decide)
              · exact h
          · rw [List.tail_cons, Ne, exceptMap_error_iff]
            exact ih2
        · by_cases h2 : rest.head? = some '+'
          · obtain ⟨tl, rfl⟩ : ∃ tl, rest = '+' :: tl := by
              cases rest with
              | nil => simp at h2
              | cons a tl =>
                simp only [List.head?] at h2
                injection h2 with h2'
                exact ⟨tl, by rw [h2']⟩
            rw [parseLoop_look_plus c ('+' :: tl) hc (by simp)]
            have htl : tl.length ≤ n := by
              simp only [List.length_cons] at hr
              omega
            obtain ⟨ih1, ih2⟩ := ih tl htl
            constructor
            · rw [exceptMap_error_iff, List.tail_cons, ih1, hUc, unclosed_cons_iff]
              constructor
              · exact Or.inr
              · rintro (⟨h, -⟩ | h)
                · exact absurd h (by decide)
                · exact h
            · rw [List.tail_cons, Ne, exceptMap_error_iff]
              exact ih2
          · obtain ⟨ih1, ih2⟩ := ih rest hr
            by_cases h3 : c = '*' ∨ c = '+'
            · rw [parseLoop_skip c rest hc h1 h2 h3]
              exact ⟨by rw [ih1, hUc], ih2⟩
            · rw [parseLoop_char c rest hc h1 h2 h3]
              constructor
              · rw [exceptMap_error_iff, ih1, hUc]
              · rw [Ne, exceptMap_error_iff]
                exact ih2

/-- Exactly which patterns the parser rejects, stated for the pattern
itself. -/
theorem parseLoop_error_iff (p : List Char) :
    (parseLoop p = Except.error CompileErr.unmatchedBracket ↔ Unclosed p)
    ∧ parseLoop p ≠ Except.error CompileErr.invalidPattern :=
  parseLoop_error_characterization p.length p (Nat.le_refl _)

/-! ### The index-based runner agrees with the suffix-based matcher -/

theorem drop_isEmpty_eq (s : List Char) (sp : Nat) :
    (s.drop sp).isEmpty = decide (sp ≥ s.length) := by
  by_cases h : s.length ≤ sp
  · simp [List.drop_eq_nil_of_le h, List.isEmpty_iff, ge_iff_le, h]
  · push_neg at h
    rw [List.drop_eq_getElem_cons h]
    simp only [List.isEmpty_cons, ge_iff_le]
    simp
    omega

theorem matchRun_master : ∀ fuel : Nat,
    (∀ (ts : List Token) (s : List Char) (p sp : Nat),
      ts.length - p + (s.length - sp) < fuel →
      matchRun fuel ts s p sp = RunResult.ok (mmatch (ts.drop p) (s.drop sp)))
    ∧ (∀ (pred : Char → Bool) (ts : List Token) (s : List Char) (p i : Nat),
      p < ts.length → ts.length - p + (s.length - i) ≤ fuel →
      starRun fuel pred ts s p i
        = RunResult.ok (starLoop pred (fun r => mmatch (ts.drop (p + 1)) r) (s.drop i)))
    ∧ (∀ (pred : Char → Bool) (ts : List Token) (s : List Char) (p i : Nat),
      p < ts.length → i ≤ s.length → ts.length - p + (s.length - i) < fuel →
      plusRun fuel pred ts s p i
        = RunResult.ok (plusLoop pred (fun r => mmatch (ts.drop (p + 1)) r) (s.drop i))) := by
  intro fuel
  induction fuel with
  | zero =>
    refine ⟨fun ts s p sp h => absurd h (by omega), fun pred ts s p i hp h => ?_,
      fun pred ts s p i hp hi h => absurd h (by omega)⟩
    omega
  | succ n ih =>
    obtain ⟨ihA, ihB, ihC⟩ := ih
    refine ⟨?_, ?_, ?_⟩
    · intro ts s p sp hlt
      simp only [matchRun]
      by_cases hp : p ≥ ts.length
      · rw [if_pos hp, List.drop_eq_nil_of_le hp]
        rw [show mmatch [] (s.drop sp) = (s.drop sp).isEmpty from rfl, drop_isEmpty_eq]
      · push_neg at hp
        rw [if_neg (by omega)]
        have hget : ts.get? p = some (ts[p]) := by
          simp [List.get?_eq_getElem?, List.getElem?_eq_getElem hp]
        have hdrop : ts.drop p = ts[p] :: ts.drop (p + 1) :=
          List.drop_eq_getElem_cons hp
        rw [hget, hdrop]
        cases htok : ts[p] with
        | tchar v =>
          simp only []
          by_cases hdot : v = '.'
          · by_cases hsp : sp < s.length
            · have hdrops : s.drop sp = s[sp] :: s.drop (sp + 1) :=
                List.drop_eq_getElem_cons hsp
              rw [if_pos hdot, if_pos hsp, ihA ts s (p + 1) (sp + 1) (by omega), hdrops]
              simp [mmatch, charMatch, hdot]
            · have hnil : s.drop sp = [] := List.drop_eq_nil_of_le (by omega)
              rw [if_pos hdot, if_neg hsp, hnil]
              rfl
          · by_cases hsp : sp < s.length
            · have hdrops : s.drop sp = s[sp] :: s.drop (sp + 1) :=
                List.drop_eq_getElem_cons hsp
              have hgets : s.get? sp = some (s[sp]) := by
                simp [List.get?_eq_getElem?, List.getElem?_eq_getElem hsp]
              rw [if_neg hdot, if_pos hsp, hgets, hdrops]
              simp only []
              by_cases hcv : s[sp] = v
              · rw [if_pos hcv, ihA ts s (p + 1) (sp + 1) (by omega)]
                simp [mmatch, charMatch, hdot, hcv]
              · rw [if_neg hcv]
                simp [mmatch, charMatch, hdot, hcv]
            · have hnil : s.drop sp = [] := List.drop_eq_nil_of_le (by omega)
              rw [if_neg hdot, if_neg hsp, hnil]
              rfl
        | tclass ct =>
          simp only []
          by_cases hsp : sp < s.length
          · have hdrops : s.drop sp = s[sp] :: s.drop (sp + 1) :=
              List.drop_eq_getElem_cons hsp
            have hgets : s.get? sp = some (s[sp]) := by
              simp [List.get?_eq_getElem?, List.getElem?_eq_getElem hsp]
            rw [if_pos hsp, hgets, hdrops]
            simp only []
            by_cases hcv : matchClass ct (s[sp]) = true
            · rw [if_pos hcv, ihA ts s (p + 1) (sp + 1) (by omega)]
              simp [mmatch, hcv]
            · rw [if_neg hcv]
              simp only [mmatch]
              rw [if_neg hcv]
          · have hnil : s.drop sp = [] := List.drop_eq_nil_of_le (by omega)
            rw [if_neg hsp, hnil]
            rfl
        | tstar v =>
          simp only []
          rw [ihA ts s (p + 1) sp (by omega)]
          rw [show mmatch (Token.tstar v :: ts.drop (p + 1)) (s.drop sp)
              = (mmatch (ts.drop (p + 1)) (s.drop sp)
                 || starLoop (charMatch v) (fun r => mmatch (ts.drop (p + 1)) r) (s.drop sp))
              from rfl]
          cases hz : mmatch (ts.drop (p + 1)) (s.drop sp) with
          | true => rfl
          | false =>
            simp only [Bool.false_or]
            exact ihB (charMatch v) ts s p sp hp (by omega)
        | tstarClass ct =>
          simp only []
          rw [ihA ts s (p + 1) sp (by omega)]
          rw [show mmatch (Token.tstarClass ct :: ts.drop (p + 1)) (s.drop sp)
              = (mmatch (ts.drop (p + 1)) (s.drop sp)
                 || starLoop (matchClass ct) (fun r => mmatch (ts.drop (p + 1)) r) (s.drop sp))
              from rfl]
          cases hz : mmatch (ts.drop (p + 1)) (s.drop sp) with
          | true => rfl
          | false =>
            simp only [Bool.false_or]
            exact ihB (matchClass ct) ts s p sp hp (by omega)
        | tplus v =>
          simp only []
          by_cases hsp : sp ≥ s.length
          · have hnil : s.drop sp = [] := List.drop_eq_nil_of_le hsp
            rw [if_pos hsp, hnil]
            rfl
          · push_neg at hsp
            have hdrops : s.drop sp = s[sp] :: s.drop (sp + 1) :=
              List.drop_eq_getElem_cons hsp
            have hgets : s.get? sp = some (s[sp]) := by
              simp [List.get?_eq_getElem?, List.getElem?_eq_getElem hsp]
            rw [if_neg (by omega), hgets, hdrops]
            simp only [mmatch]
            by_cases hcv : charMatch v (s[sp]) = true
            · rw [if_pos hcv, if_pos hcv]
              exact ihC (charMatch v) ts s p (sp + 1) hp (by omega) (by omega)
            · rw [if_neg hcv, if_neg hcv]
        | tplusClass ct =>
          simp only []
          by_cases hsp : sp ≥ s.length
          · have hnil : s.drop sp = [] := List.drop_eq_nil_of_le hsp
            rw [if_pos hsp, hnil]
            rfl
          · push_neg at hsp
            have hdrops : s.drop sp = s[sp] :: s.drop (sp + 1) :=
              List.drop_eq_getElem_cons hsp
            have hgets : s.get? sp = some (s[sp]) := by
              simp [List.get?_eq_getElem?, List.getElem?_eq_getElem hsp]
            rw [if_neg (by omega), hgets, hdrops]
            simp only [mmatch]
            by_cases hcv : matchClass ct (s[sp]) = true
            · rw [if_pos hcv, if_pos hcv]
              exact ihC (matchClass ct) ts s p (sp + 1) hp (by omega) (by omega)
            · rw [if_neg hcv, if_neg hcv]
    · intro pred ts s p i hp hle
      simp only [starRun]
      by_cases hi : i < s.length
      · have hdrops : s.drop i = s[i] :: s.drop (i + 1) :=
          List.drop_eq_getElem_cons hi
        have hgets : s.get? i = some (s[i]) := by
          simp [List.get?_eq_getElem?, List.getElem?_eq_getElem hi]
        rw [if_pos hi, hgets, hdrops]
        simp only [starLoop]
        by_cases hpc : pred (s[i]) = true
        · rw [if_pos hpc, if_pos hpc]
          rw [ihA ts s (p + 1) (i + 1) (by omega)]
          cases hz : mmatch (ts.drop (p + 1)) (s.drop (i + 1)) with
          | true => rfl
          | false =>
            simp only [Bool.false_or]
            exact ihB pred ts s p (i + 1) hp (by omega)
        · rw [if_neg hpc, if_neg hpc]
      · have hnil : s.drop i = [] := List.drop_eq_nil_of_le (by omega)
        rw [if_neg hi, hnil]
        rfl
    · intro pred ts s p i hp hile hlt
      simp only [plusRun]
      rw [if_pos hile, ihA ts s (p + 1) i (by omega)]
      by_cases hi : i < s.length
      · have hdrops : s.drop i = s[i] :: s.drop (i + 1) :=
          List.drop_eq_getElem_cons hi
        have hgets : s.get? i = some (s[i]) := by
          simp [List.get?_eq_getElem?, List.getElem?_eq_getElem hi]
        rw [hdrops]
        simp only [plusLoop]
        cases hz : mmatch (ts.drop (p + 1)) (s[i] :: s.drop (i + 1)) with
        | true => rfl
        | false =>
          simp only [Bool.false_or]
          rw [if_neg (by omega), hgets]
          simp only []
          by_cases hpc : pred (s[i]) = true
          · rw [if_pos hpc, if_pos hpc]
            exact ihC pred ts s p (i + 1) hp (by omega) (by omega)
          · rw [if_neg hpc, if_neg hpc]
      · have hnil : s.drop i = [] := List.drop_eq_nil_of_le (by omega)
        rw [hnil]
        simp only [plusLoop]
        cases hz : mmatch (ts.drop (p + 1)) [] with
        | true => rfl
        | false => rw [if_pos (by omega)]

/-! ### The claims -/

/-- C1: for every successfully compiled pattern and every input string,
`check_string` returns true iff every token of the pattern can be assigned a
consecutive segment of the input such that the concatenation of the segments
is exactly the whole input; in particular a match of a strict prefix of the
input alone never yields true, since the segments must concatenate to all of
it. -/
theorem check_string_iff_partition (p : List Char) (ts : List Token) (s : List Char)
    (hc : compile p = Except.ok ts) :
    checkString ts s = true ↔
      ∃ segs : List (List Char),
        List.Forall₂ (fun t seg => tokenSeg t seg = true) ts segs ∧ segs.flatten = s :=
  mmatch_iff_segs ts s

/-- Witness for C1 at the compiled pattern "a*" and the input "aa". -/
theorem check_string_iff_partition_witness :
    compile ['a', '*'] = Except.ok [Token.tstar 'a']
    ∧ (checkString [Token.tstar 'a'] ['a', 'a'] = true ↔
        ∃ segs : List (List Char),
          List.Forall₂ (fun t seg => tokenSeg t seg = true) [Token.tstar 'a'] segs
          ∧ segs.flatten = ['a', 'a']) :=
  ⟨by simp [compile, parseLoop, findRB, Except.map],
   check_string_iff_partition ['a', '*'] [Token.tstar 'a'] ['a', 'a']
     (by simp [compile, parseLoop, findRB, Except.map])⟩

/-- C2 counterexample: for the inner atom 'a' at the input "aa" the star loop
attempts the occurrence counts in the order [1, 2] — increasing — while the
claimed greedy longest-first order would attempt [2, 1]. -/
theorem star_longest_first_counterexample :
    starAttemptCounts (charMatch 'a') ['a', 'a'] 0 = [1, 2]
    ∧ starAttemptCounts (charMatch 'a') ['a', 'a'] 0
      ≠ ((List.range (maxRun (charMatch 'a') ['a', 'a'])).map (fun m => m + 1)).reverse := by
  decide

/-- C2 (amended): the star branch first tries the zero-occurrence branch, and
its scan loop then attempts occurrence counts in increasing order 1, 2, … up to
the maximal contiguous run satisfying the inner atom (shortest-first, not
longest-first), returning success on the first branch that succeeds; this holds
for both the `star` and the `star_class` forms. -/
theorem star_zero_then_shortest_first (v : Char) (ct : List Char) (ts : List Token)
    (s : List Char) :
    (mmatch (Token.tstar v :: ts) s
      = (mmatch ts s
         || (starAttemptCounts (charMatch v) s 0).any (fun m => mmatch ts (s.drop m))))
    ∧ starAttemptCounts (charMatch v) s 0
      = (List.range (maxRun (charMatch v) s)).map (fun m => m + 1)
    ∧ (mmatch (Token.tstarClass ct :: ts) s
      = (mmatch ts s
         || (starAttemptCounts (matchClass ct) s 0).any (fun m => mmatch ts (s.drop m))))
    ∧ starAttemptCounts (matchClass ct) s 0
      = (List.range (maxRun (matchClass ct) s)).map (fun m => m + 1) := by
  refine ⟨?_, starAttemptCounts_asc _ _, ?_, starAttemptCounts_asc _ _⟩
  · rw [show mmatch (Token.tstar v :: ts) s
        = (mmatch ts s || starLoop (charMatch v) (fun r => mmatch ts r) s) from rfl,
      starLoop_eq_attempts]
  · rw [show mmatch (Token.tstarClass ct :: ts) s
        = (mmatch ts s || starLoop (matchClass ct) (fun r => mmatch ts r) s) from rfl,
      starLoop_eq_attempts]

/-- C3 counterexample: the reversed-range pattern "[z-a]" compiles successfully
into a class token — no InvalidRange rejection exists anywhere in the code —
contradicting the claim that compilation fails. -/
theorem reversed_range_compiles :
    compile ['[', 'z', '-', 'a', ']'] = Except.ok [Token.tclass ['z', '-', 'a']] := by
  simp [compile, parseLoop, findRB, Except.map]

/-- C3 (amended): a pattern whose class consists of a range with reversed
bounds compiles successfully, and the resulting class silently matches no
character at all. -/
theorem reversed_range_silent (a b : Char) (hrev : b.toNat < a.toNat)
    (ha1 : a ≠ '^') (ha2 : a ≠ ']') (hb : b ≠ ']') :
    compile ('[' :: a :: '-' :: b :: [']']) = Except.ok [Token.tclass [a, '-', b]]
    ∧ ∀ c : Char, matchClass [a, '-', b] c = false := by
  constructor
  · have hfind : findRB (a :: '-' :: b :: [']']) = some ([a, '-', b], []) := by
      simp [findRB, ha2, hb]
    have hcg : compile ('[' :: a :: '-' :: b :: [']'])
        = parseLoop ('[' :: a :: '-' :: b :: [']']) := by
      simp [compile]
    rw [hcg, parseLoop_bracket_bare _ _ _ hfind (by simp) (by simp), parseLoop_nil]
    rfl
  · intro c
    have hcond : ¬(a.toNat ≤ c.toNat ∧ c.toNat ≤ b.toNat) := by omega
    simp [matchClass, classScan, ha1, hcond]

/-- Witness for C3 amended at the class "[z-a]". -/
theorem reversed_range_silent_witness :
    ('a'.toNat < 'z'.toNat ∧ ('z' : Char) ≠ '^' ∧ ('z' : Char) ≠ ']'
      ∧ ('a' : Char) ≠ ']')
    ∧ (compile ('[' :: 'z' :: '-' :: 'a' :: [']']) = Except.ok [Token.tclass ['z', '-', 'a']]
       ∧ ∀ c : Char, matchClass ['z', '-', 'a'] c = false) :=
  ⟨by decide, reversed_range_silent 'z' 'a' (by decide) (by decide) (by decide) (by decide)⟩

/-- C4: compilation fails with InvalidPattern exactly on the empty pattern or a
pattern beginning with '*' or '+'; it fails with UnmatchedBracket exactly when
those guards pass and the pattern contains an opening '[' with no closing ']'
before the end; every other pattern compiles successfully. -/
theorem compile_failure_characterization (p : List Char) :
    (compile p = Except.error CompileErr.invalidPattern
      ↔ (p = [] ∨ p.head? = some '*' ∨ p.head? = some '+'))
    ∧ (compile p = Except.error CompileErr.unmatchedBracket
      ↔ (¬(p = [] ∨ p.head? = some '*' ∨ p.head? = some '+') ∧ Unclosed p))
    ∧ ((∃ ts, compile p = Except.ok ts)
      ↔ ¬(p = [] ∨ p.head? = some '*' ∨ p.head? = some '+' ∨ Unclosed p)) := by
  by_cases hg : p = [] ∨ p.head? = some '*' ∨ p.head? = some '+'
  · have hc : compile p = Except.error CompileErr.invalidPattern := by
      rcases hg with h | h | h
      · simp [compile, h]
      · simp [compile, h]
      · simp [compile, h]
    refine ⟨iff_of_true hc hg, iff_of_false (by rw [hc]; simp) (fun h => h.1 hg), ?_⟩
    refine iff_of_false ?_ (fun h => h (by tauto))
    rintro ⟨ts, hts⟩
    rw [hc] at hts
    cases hts
  · have hnotnil : p ≠ [] := fun h => hg (Or.inl h)
    have hnots : ¬(p.head? = some '*' ∨ p.head? = some '+') := fun h => hg (Or.inr h)
    have hc : compile p = parseLoop p := by
      simp only [compile]
      rw [if_neg hnotnil, if_neg hnots]
    obtain ⟨hiff, hninv⟩ := parseLoop_error_iff p
    refine ⟨iff_of_false (by rw [hc]; exact hninv) hg, ?_, ?_⟩
    · rw [hc, hiff]
      exact ⟨fun h => ⟨hg, h⟩, And.right⟩
    · rw [hc]
      cases hpl : parseLoop p with
      | ok ts =>
        refine iff_of_true ⟨ts, rfl⟩ ?_
        rintro (h | h | h | h)
        · exact hnotnil h
        · exact hnots (Or.inl h)
        · exact hnots (Or.inr h)
        · rw [← hiff] at h
          rw [hpl] at h
          cases h
      | error e =>
        cases e with
        | invalidPattern => exact absurd hpl hninv
        | unmatchedBracket =>
          have hU : Unclosed p := hiff.mp hpl
          refine iff_of_false ?_ (fun h => h (by tauto))
          rintro ⟨ts, hts⟩
          cases hts

/-- C5 counterexample: "[]" compiles successfully to a class token whose range
list is empty, refuting the claim that every class token of a compiled pattern
has non-empty ranges. -/
theorem empty_class_ranges_counterexample :
    ¬ (∀ (p : List Char) (ts : List Token), compile p = Except.ok ts →
        ∀ ct : List Char, Token.tclass ct ∈ ts → classRanges ct ≠ []) := by
  intro h
  exact h ['[', ']'] [Token.tclass []]
    (by simp [compile, parseLoop, findRB, Except.map]) [] (by simp) rfl

/-- C5 (amended): every class token of a successfully compiled pattern whose
bracket content is non-empty after stripping a leading '^' has a non-empty
range list; only the degenerate classes written "[]" or "[^]" yield empty
ranges. -/
theorem class_ranges_nonempty (p : List Char) (ts : List Token) (ct : List Char)
    (hok : compile p = Except.ok ts)
    (hmem : Token.tclass ct ∈ ts ∨ Token.tstarClass ct ∈ ts ∨ Token.tplusClass ct ∈ ts)
    (hne : classContentOf ct ≠ []) :
    classRanges ct ≠ [] := by
  have key : ∀ l : List Char, l ≠ [] → rangesOf l ≠ [] := by
    intro l hl
    match l with
    | [] => exact absurd rfl hl
    | [x] => simp [rangesOf]
    | [x, d] => simp [rangesOf]
    | x :: d :: b :: tl =>
      simp only [rangesOf]
      split <;> simp
  exact key _ hne

/-- Witness for C5 amended at the pattern "[a]". -/
theorem class_ranges_nonempty_witness :
    compile ['[', 'a', ']'] = Except.ok [Token.tclass ['a']]
    ∧ classRanges ['a'] ≠ [] :=
  ⟨by simp [compile, parseLoop, findRB, Except.map],
   class_ranges_nonempty ['[', 'a', ']'] [Token.tclass ['a']] ['a']
     (by simp [compile, parseLoop, findRB, Except.map]) (Or.inl (by simp)) (by decide)⟩

/-- C6: the matcher is total — run with fuel covering its recursion depth, the
index-based runner (whose every list access is modelled as fallible) reaches
neither an out-of-range access (`indexError`) nor fuel exhaustion: it returns
exactly the boolean verdict `check_string` computes, for every token list and
every input string including the empty one. -/
theorem matchRun_total (ts : List Token) (s : List Char) :
    matchRun (ts.length + s.length + 1) ts s 0 0 = RunResult.ok (checkString ts s) := by
  have h := (matchRun_master (ts.length + s.length + 1)).1 ts s 0 0 (by omega)
  simpa [checkString] using h

/-- C7: the backtracking search terminates — its recursion depth is bounded, so
any fuel of at least (tokenCount + 1) × (inputLength + 1) lets the fuel-paced
runner complete with the matcher verdict instead of running out of fuel. -/
theorem matchRun_terminates (ts : List Token) (s : List Char) (fuel : Nat)
    (h : (ts.length + 1) * (s.length + 1) ≤ fuel) :
    matchRun fuel ts s 0 0 = RunResult.ok (checkString ts s) := by
  have hexp : (ts.length + 1) * (s.length + 1)
      = ts.length * s.length + ts.length + s.length + 1 := by ring
  have hb : ts.length + s.length < fuel := by omega
  have h2 := (matchRun_master fuel).1 ts s 0 0 (by omega)
  simpa [checkString] using h2

/-- Witness for C7 at the pattern tokens of "a*" and the input "aa" with fuel 6. -/
theorem matchRun_terminates_witness :
    (([Token.tstar 'a'].length + 1) * ((['a', 'a'] : List Char).length + 1) ≤ 6)
    ∧ matchRun 6 [Token.tstar 'a'] ['a', 'a'] 0 0
      = RunResult.ok (checkString [Token.tstar 'a'] ['a', 'a']) :=
  ⟨by decide, matchRun_terminates [Token.tstar 'a'] ['a', 'a'] 6 (by decide)⟩

/-- C8: class negation duality — for any class content that does not itself
begin with the negation marker, the negated class built from the identical
content disagrees with the plain class on every character. -/
theorem class_negation_duality (content : List Char) (c : Char)
    (h : content.head? ≠ some '^') :
    matchClass ('^' :: content) c ≠ matchClass content c := by
  have h1 : matchClass ('^' :: content) c = !classScan content c := by
    simp [matchClass]
  have h2 : matchClass content c = classScan content c := by
    simp [matchClass, h]
  rw [h1, h2]
  cases classScan content c <;> simp

/-- Witness for C8 at the ranges "a-z" and the character 'm'. -/
theorem class_negation_duality_witness :
    ((['a', '-', 'z'] : List Char).head? ≠ some '^')
    ∧ matchClass ('^' :: ['a', '-', 'z']) 'm' ≠ matchClass ['a', '-', 'z'] 'm' :=
  ⟨by decide, class_negation_duality ['a', '-', 'z'] 'm' (by decide)⟩

/-- C9 counterexample: "a***" contains a '*' immediately after the repeated
atom "a*", yet it does not compile to the tokens of "a**" (which equal those of
"a*"): the extra operator is parsed as a star over the literal '*' character,
and the two token sequences accept different strings. -/
theorem extra_operator_counterexample :
    parseLoop ['a', '*', '*', '*'] = Except.ok [Token.tstar 'a', Token.tstar '*']
    ∧ parseLoop ['a', '*', '*'] = Except.ok [Token.tstar 'a']
    ∧ parseLoop ['a', '*', '*', '*'] ≠ parseLoop ['a', '*', '*']
    ∧ checkString [Token.tstar 'a', Token.tstar '*'] ['*'] = true
    ∧ checkString [Token.tstar 'a'] ['*'] = false := by
  have h1 : parseLoop ['a', '*', '*', '*'] = Except.ok [Token.tstar 'a', Token.tstar '*'] := by
    simp [parseLoop, findRB, Except.map]
  have h2 : parseLoop ['a', '*', '*'] = Except.ok [Token.tstar 'a'] := by
    simp [parseLoop, findRB, Except.map]
  refine ⟨h1, h2, ?_, by decide, by decide⟩
  rw [h1, h2]
  simp

/-- C9 (amended): a single extra '*' or '+' immediately after a repeated
single-character atom is skipped, and the pattern compiles to exactly the same
token sequence as without it, provided the extra operator is not itself
immediately followed by another '*' or '+' (otherwise the extra operator is
parsed as an atom of its own, as "a***" shows). -/
theorem extra_operator_skipped (a op1 op2 : Char) (rest : List Char)
    (ha : a ≠ '[')
    (h1 : op1 = '*' ∨ op1 = '+') (h2 : op2 = '*' ∨ op2 = '+')
    (hr1 : rest.head? ≠ some '*') (hr2 : rest.head? ≠ some '+') :
    parseLoop (a :: op1 :: op2 :: rest) = parseLoop (a :: op1 :: rest) := by
  have hop2 : op2 ≠ '[' := by
    rcases h2 with rfl | rfl <;> decide
  have hskip : parseLoop (op2 :: rest) = parseLoop rest :=
    parseLoop_skip op2 rest hop2 hr1 hr2 h2
  rcases h1 with rfl | rfl
  · rw [parseLoop_look_star a ('*' :: op2 :: rest) ha rfl,
      parseLoop_look_star a ('*' :: rest) ha rfl]
    simp only [List.tail_cons]
    rw [hskip]
  · rw [parseLoop_look_plus a ('+' :: op2 :: rest) ha rfl,
      parseLoop_look_plus a ('+' :: rest) ha rfl]
    simp only [List.tail_cons]
    rw [hskip]

/-- Witness for C9 amended at the pattern "a*+b" versus "a*b". -/
theorem extra_operator_skipped_witness :
    (('a' : Char) ≠ '[' ∧ (('*' : Char) = '*' ∨ ('*' : Char) = '+')
      ∧ (('+' : Char) = '*' ∨ ('+' : Char) = '+')
      ∧ (['b'] : List Char).head? ≠ some '*' ∧ (['b'] : List Char).head? ≠ some '+')
    ∧ parseLoop ['a', '*', '+', 'b'] = parseLoop ['a', '*', 'b'] :=
  ⟨⟨by decide, Or.inl rfl, Or.inr rfl, by decide, by decide⟩,
   extra_operator_skipped 'a' '*' '+' ['b'] (by decide) (Or.inl rfl) (Or.inr rfl)
     (by decide) (by decide)⟩

/-- C10 counterexample: in the class "--z" the leading '-' is not the middle
character of the three-character triple, yet it is consumed as the low bound of
the range ('-','z') rather than as a singleton literal; the class consequently
matches 'a', which a singleton '-' range would not. -/
theorem dash_range_bound_counterexample :
    rangesOf ['-', '-', 'z'] = [('-', 'z')]
    ∧ rangesOf ['-', '-', 'z'] ≠ ('-', '-') :: rangesOf ['-', 'z']
    ∧ matchClass ['-', '-', 'z'] 'a' = true
    ∧ compile ['[', '-', '-', 'z', ']'] = Except.ok [Token.tclass ['-', '-', 'z']] := by
  refine ⟨by decide, by decide, by decide, ?_⟩
  simp [compile, parseLoop, findRB, Except.map]

/-- C10 (amended): a '-' reached directly by the class scan is treated as a
singleton literal range — matching exactly the '-' character at that step —
whenever it does not open a range triple (that is, whenever the remaining
content does not continue with another '-' and a bound); in particular "[-a]"
and "[a-]" compile successfully with the '-' as a singleton range. -/
theorem dash_singleton_literal (rest : List Char)
    (h : ∀ (b : Char) (tl : List Char), rest ≠ '-' :: b :: tl) :
    rangesOf ('-' :: rest) = ('-', '-') :: rangesOf rest
    ∧ (∀ c : Char,
        classScan ('-' :: rest) c = (if c = '-' then true else classScan rest c))
    ∧ compile ['[', '-', 'a', ']'] = Except.ok [Token.tclass ['-', 'a']]
    ∧ compile ['[', 'a', '-', ']'] = Except.ok [Token.tclass ['a', '-']]
    ∧ classRanges ['-', 'a'] = [('-', '-'), ('a', 'a')]
    ∧ classRanges ['a', '-'] = [('a', 'a'), ('-', '-')] := by
  refine ⟨?_, ?_, by simp [compile, parseLoop, findRB, Except.map],
    by simp [compile, parseLoop, findRB, Except.map], by decide, by decide⟩
  · match rest, h with
    | [], _ => simp [rangesOf]
    | [d], _ => simp [rangesOf]
    | d :: b :: tl, h =>
      have hd : d ≠ '-' := fun hdd => h b tl (by rw [hdd])
      simp only [rangesOf]
      rw [if_neg hd]
  · intro c
    match rest, h with
    | [], _ => simp [classScan]
    | [d], _ => simp [classScan]
    | d :: b :: tl, h =>
      have hd : d ≠ '-' := fun hdd => h b tl (by rw [hdd])
      simp only [classScan]
      rw [if_neg hd]

/-- Witness for C10 amended at the class content "-a". -/
theorem dash_singleton_literal_witness :
    rangesOf ('-' :: ['a']) = ('-', '-') :: rangesOf ['a']
    ∧ (∀ c : Char,
        classScan ('-' :: ['a']) c = (if c = '-' then true else classScan ['a'] c))
    ∧ compile ['[', '-', 'a', ']'] = Except.ok [Token.tclass ['-', 'a']]
    ∧ compile ['[', 'a', '-', ']'] = Except.ok [Token.tclass ['a', '-']]
    ∧ classRanges ['-', 'a'] = [('-', '-'), ('a', 'a')]
    ∧ classRanges ['a', '-'] = [('a', 'a'), ('-', '-')] :=
  dash_singleton_literal ['a'] (by intro b tl hcontra; simp at hcontra)

end RegexFSM
